import Mathlib

/-!
Shallow embedding of `git-diff-format.py`: a wrapper that parses a unified
diff on standard input and invokes an external code formatter on the
changed line ranges only.

Input lines are modelled without their trailing newline; this is faithful
because every character class used by the script's regular expressions
(`.`, `\S`, `\d`) excludes the newline character, so a trailing newline can
never take part in a match.
-/

namespace GDF

/-- ASCII whitespace, the fragment of Python's `\s` (and of `shlex`'s
whitespace set) relevant to this program. -/
def isSpaceChar (c : Char) : Bool :=
  c = ' ' || c = '\t' || c = '\n' || c = '\r' || c = '\x0b' || c = '\x0c'

/-- Python's `\d` on ASCII input. -/
def isDigitChar (c : Char) : Bool :=
  '0' ≤ c && c ≤ '9'

/-- The repetition `(.*?/){p}` of the header regex
`^\+\+\+\ (.*?/){p}(\S*)`: lazily consume up to and including the `p`-th
slash; `none` when the line holds fewer than `p` slashes (then the whole
regex fails to match). -/
def dropSegs : Nat → List Char → Option (List Char)
  | 0, cs => some cs
  | _ + 1, [] => none
  | p + 1, c :: cs => if c = '/' then dropSegs p cs else dropSegs (p + 1) cs

/-- The header regex `re.search(r'^\+\+\+\ (.*?/){p}(\S*)', line)` of
`main`: on success, returns the capture `match.group(2)`, the maximal
non-whitespace run after the `p`-th slash. -/
def headerMatch (p : Nat) (line : List Char) : Option (List Char) :=
  if line.take 4 = ['+', '+', '+', ' '] then
    (dropSegs p (line.drop 4)).map (List.takeWhile (fun c => !isSpaceChar c))
  else none

/-- Numeric value of a digit string, as Python's `int`. -/
def digitsVal (cs : List Char) : Nat :=
  cs.foldl (fun a c => a * 10 + (c.toNat - 48)) 0

/-- Greedy `(\d+)`: the maximal leading digit run and the rest; `none`
when there is no leading digit. -/
def parseNum (cs : List Char) : Option (Nat × List Char) :=
  let ds := cs.takeWhile isDigitChar
  if ds.isEmpty then none
  else some (digitsVal ds, cs.dropWhile isDigitChar)

/-- The part `.*\+(\d+)(,(\d+))?` of the hunk regex: because `.*` is
greedy, the match taken is at the LAST position holding `+` immediately
followed by a digit; `(,(\d+))?` optionally reads an explicit count. -/
def hunkScan : List Char → Option (Nat × Option Nat)
  | [] => none
  | c :: cs =>
    match hunkScan cs with
    | some r => some r
    | none =>
      if c = '+' then
        match parseNum cs with
        | none => none
        | some (s, rest) =>
          match rest with
          | ',' :: rest2 =>
            match parseNum rest2 with
            | some (n, _) => some (s, some n)
            | none => some (s, none)
          | _ => some (s, none)
      else none

/-- The hunk regex `re.search(r'^@@.*\+(\d+)(,(\d+))?', line)` of `main`:
group 1 (the start line) and the optional group 3 (the count). -/
def hunkParse (line : List Char) : Option (Nat × Option Nat) :=
  if line.take 2 = ['@', '@'] then hunkScan (line.drop 2) else none

/-- `re.match('^%s$' % supported_files, filename, re.IGNORECASE)` where
`supported_files` is `.*\.(e1|e2|...)`: a case-insensitive full match,
i.e. the filename ends with a dot followed by one of the extensions. -/
def extMatches (exts : List String) (filename : String) : Bool :=
  exts.any (fun e => ('.' :: e.data).isSuffixOf (filename.data.map Char.toLower))

/-- State of the extraction loop in `main`: the `filename` variable and
the `lines_by_file` dict (insertion-ordered, as Python dicts are). -/
structure ExtractState where
  filename : Option String
  lines_by_file : List (String × List (Nat × Nat))
  deriving DecidableEq, Repr

/-- `lines_by_file.setdefault(filename, []).append(r)`: append `r` to the
entry of `f`, creating the entry at the end when absent. -/
def appendRange (m : List (String × List (Nat × Nat))) (f : String)
    (r : Nat × Nat) : List (String × List (Nat × Nat)) :=
  match m with
  | [] => [(f, [r])]
  | (g, rs) :: rest =>
      if g = f then (g, rs ++ [r]) :: rest else (g, rs) :: appendRange rest f r

/-- The `filename` variable after one loop iteration: a matching `+++`
header overwrites it, any other line leaves it unchanged. -/
def nextFilename (p : Nat) (fn : Option String) (line : List Char) : Option String :=
  match headerMatch p line with
  | some f => some (String.mk f)
  | none => fn

/-- The range the loop body records for one line, given the updated
`filename`: `none` on every `continue` path (no filename, extension
mismatch, no hunk match, zero count), otherwise the
`(start_line, end_line)` pair with `end_line = start_line + count - 1`. -/
def lineEmit (exts : List String) (fn : Option String) (line : List Char) :
    Option (String × (Nat × Nat)) :=
  match fn with
  | none => none
  | some f =>
    if extMatches exts f then
      match hunkParse line with
      | some (s, cnt) =>
        let c := cnt.getD 1
        if c = 0 then none else some (f, (s, s + c - 1))
      | none => none
    else none

/-- One iteration of the `for line in sys.stdin` loop of `main`. -/
def stepFn (exts : List String) (p : Nat) (st : ExtractState)
    (line : List Char) : ExtractState :=
  let fn := nextFilename p st.filename line
  match lineEmit exts fn line with
  | some (f, r) => ⟨fn, appendRange st.lines_by_file f r⟩
  | none => ⟨fn, st.lines_by_file⟩

/-- The whole extraction phase of `main`: fold the loop body over the
input lines, starting from `filename = None`, `lines_by_file = {}`. -/
def extract (exts : List String) (p : Nat) (input : List (List Char)) :
    List (String × List (Nat × Nat)) :=
  (input.foldl (stepFn exts p) ⟨none, []⟩).lines_by_file

/-- The chronological trace of `(filename, range)` emissions of the
extraction loop, in input order: the specification-side view used to
state order preservation. -/
def emits (exts : List String) (p : Nat) :
    Option String → List (List Char) → List (String × (Nat × Nat))
  | _, [] => []
  | fn, line :: rest =>
    let fn' := nextFilename p fn line
    match lineEmit exts fn' line with
    | some e => e :: emits exts p fn' rest
    | none => emits exts p fn' rest

/-- The ranges recorded for file `f` (first binding of `f`, as `dict`
lookup; `extract` never creates duplicate keys). -/
def rangesOf (m : List (String × List (Nat × Nat))) (f : String) :
    List (Nat × Nat) :=
  match m with
  | [] => []
  | (g, rs) :: rest => if g = f then rs else rangesOf rest f

/-- The `CodeFormatter` class: binary name, per-range argument template
(a Python format string with two `{:d}` slots) and the constructor's
`options` argument (stored but never read by `format_code`, which uses
its own `options` parameter instead). -/
structure CodeFormatter where
  binary : String
  line_format : String
  options : Option (List String)
  deriving DecidableEq, Repr

/-- Replace the first occurrence of the format field `{:d}` by `x`
(the template scan of Python's `str.format`; the two templates in the
source contain only well-formed `{:d}` fields). -/
def fmt1 (x : String) : List Char → List Char
  | [] => []
  | c :: rest =>
    if c = '\x7b' ∧ rest.take 3 = [':', 'd', '\x7d'] then x.data ++ rest.drop 3
    else c :: fmt1 x rest

/-- `template.format(a, b)` for a template with two `{:d}` slots, applied
to the two non-negative range endpoints. -/
def pyFormat2 (template : String) (a b : Nat) : String :=
  String.mk (fmt1 (toString b) (fmt1 (toString a) template.data))

/-- Whitespace tokenizer: models Python's `shlex.split` restricted to
inputs containing no quote (`'`, `"`) or escape (`\`) characters, on
which `shlex.split` degenerates to splitting on whitespace runs. -/
def splitWsAux : List Char → List Char → List String
  | [], acc => if acc.isEmpty then [] else [String.mk acc.reverse]
  | c :: cs, acc =>
    if isSpaceChar c then
      if acc.isEmpty then splitWsAux cs [] else String.mk acc.reverse :: splitWsAux cs []
    else splitWsAux cs (c :: acc)

/-- `shlex.split(s)` on quote-free, escape-free input. -/
def shlexSplit (s : String) : List String :=
  splitWsAux s.data []

/-- Python's `' '.join`. -/
def joinSp : List String → String
  | [] => ""
  | [s] => s
  | s :: rest => s ++ " " ++ joinSp rest

/-- The command construction of `CodeFormatter.format_code` for one file:
the structured list `[binary, optional '-i', extra options, rendered
range arguments, filename]` joined with spaces and re-tokenized via
`shlex.split`. -/
def builtCommand (fmt : CodeFormatter) (inplace : Bool)
    (options : Option (List String)) (filename : String)
    (lines : List (Nat × Nat)) : List String :=
  let line_args := lines.map (fun r => pyFormat2 fmt.line_format r.1 r.2)
  let command :=
    [fmt.binary] ++ (if inplace then ["-i"] else []) ++ options.getD []
      ++ line_args ++ [filename]
  shlexSplit (joinSp command)

/-- Python's `readlines` on a text stream: split after each newline,
keeping the terminators; a final unterminated line is kept, an empty
tail is not. -/
def readlinesAux : List Char → List Char → List String
  | [], acc => if acc.isEmpty then [] else [String.mk acc.reverse]
  | c :: cs, acc =>
    if c = '\n' then String.mk (acc.reverse ++ ['\n']) :: readlinesAux cs []
    else readlinesAux cs (c :: acc)

/-- `open(filename).readlines()` / `io.StringIO(s).readlines()`. -/
def readlines (s : String) : List String :=
  readlinesAux s.data []

/-- Models `''.join(difflib.unified_diff(a, b, f1, f2, d1, d2))`. Only
its contract is relied upon: the result is empty exactly when the two
line sequences are equal, and otherwise starts with the two `---`/`+++`
header lines carrying the given file labels. -/
def unifiedDiff (a b : List String) (fromfile tofile fromfiledate tofiledate : String) :
    String :=
  if a = b then ""
  else
    "--- " ++ (fromfile ++ ("\t" ++ (fromfiledate ++ ("\n" ++
      ("+++ " ++ (tofile ++ ("\t" ++ (tofiledate ++ ("\n" ++
        ("@@ -1," ++ (toString a.length ++ (" +1," ++ (toString b.length ++ (" @@\n" ++
          (String.join (a.map (fun l => "-" ++ l)) ++
           String.join (b.map (fun l => "+" ++ l)))))))))))))))))

/-- The observable behaviour of one run: the argument vectors of the
child processes started, the text written to standard output and to
standard error, and the status passed to `sys.exit` (if any). -/
structure RunResult where
  commands : List (List String)
  out : String
  err : String
  exitCode : Option Int
  deriving DecidableEq, Repr

/-- The behaviour of the external world: maps an argument vector to the
child's `(returncode, stdout, stderr)` (streams already decoded). -/
def Exec : Type := List String → Int × String × String

/-- The filesystem as read by `open(filename)`. -/
def FileSystem : Type := String → String

/-- `CodeFormatter.format_code`: iterate over `lines_by_file`; in dry-run
mode print each assembled command; otherwise start the child, fail fast
(propagating its stderr and exit status) on non-zero return, and when not
in-place, print the unified diff of the on-disk file against the child's
captured stdout when they differ. (Entries produced by the extraction
phase always carry at least one range; the source's tuple unpacking of
`zip(*lines)` would raise on an empty one, which is therefore out of the
modelled domain.) -/
def format_code (fmt : CodeFormatter) (exec : Exec) (fs : FileSystem)
    (inplace : Bool) (options : Option (List String)) (dryrun : Bool) :
    List (String × List (Nat × Nat)) → RunResult
  | [] => ⟨[], "", "", none⟩
  | (filename, lines) :: rest =>
    let command := builtCommand fmt inplace options filename lines
    if dryrun then
      let r := format_code fmt exec fs inplace options dryrun rest
      ⟨r.commands, joinSp command ++ "\n" ++ r.out, r.err, r.exitCode⟩
    else
      let res := exec command
      if res.1 ≠ 0 then ⟨[command], "", res.2.2, some res.1⟩
      else if inplace then
        let r := format_code fmt exec fs inplace options dryrun rest
        ⟨command :: r.commands, r.out, r.err, r.exitCode⟩
      else
        let original_code := readlines (fs filename)
        let formatted_code := readlines res.2.1
        let diff_string := unifiedDiff original_code formatted_code
          filename filename "(before formatting)" "(after formatting)"
        let r := format_code fmt exec fs inplace options dryrun rest
        ⟨command :: r.commands,
          (if 0 < diff_string.length then diff_string else "") ++ r.out,
          r.err, r.exitCode⟩

/-- The `yapf` line-range template `'--lines {:d}-{:d}'`. -/
def yapfTemplate : String := "--lines \x7b:d\x7d-\x7b:d\x7d"

/-- The `clang-format` line-range template `'-lines={:d}:{:d}'`. -/
def clangTemplate : String := "-lines=\x7b:d\x7d:\x7b:d\x7d"

/-- The static formatter table of `main`: binary, template, supported
extension list; `none` for an unrecognized formatter name. -/
def formatterFor (name : String) (options : Option (List String)) :
    Option (CodeFormatter × List String) :=
  if name = "clang-format" then
    some (⟨"clang-format", clangTemplate, options⟩,
      ["cpp", "cc", "c++", "cxx", "c", "cl", "h", "hpp", "m", "mm", "inc",
       "js", "ts", "proto", "protodevel", "java"])
  else if name = "yapf" then
    some (⟨"yapf", yapfTemplate, options⟩, ["py"])
  else if name = "yapf3" then
    some (⟨"yapf3", yapfTemplate, options⟩, ["py"])
  else none

/-- `main` after argument parsing: select the formatter (exiting with
status 78 and a message on standard output for an unknown name, before
any input is read or process started), extract the changed ranges from
the input lines, and run `format_code`. -/
def mainRun (formatterName : String) (p : Nat) (inplace dryrun : Bool)
    (options : Option (List String)) (stdinLines : List (List Char))
    (exec : Exec) (fs : FileSystem) : RunResult :=
  match formatterFor formatterName options with
  | none =>
      ⟨[], "Formatter " ++ formatterName ++ " not implemented" ++ "\n", "", some 78⟩
  | some (fmt, exts) =>
      format_code fmt exec fs inplace options dryrun (extract exts p stdinLines)

/-! ## Helper lemmas -/

/-- A line that matches the hunk regex starts with `@@`, hence cannot
match the `+++` header regex. -/
theorem headerMatch_of_hunkParse (p : Nat) {l : List Char} {r : Nat × Option Nat}
    (h : hunkParse l = some r) : headerMatch p l = none := by
  unfold hunkParse at h
  by_cases h2 : l.take 2 = ['@', '@']
  · unfold headerMatch
    rw [if_neg]
    intro h4
    have h24 := congrArg (List.take 2) h4
    rw [List.take_take] at h24
    rw [show min 2 4 = 2 from rfl] at h24
    rw [h2] at h24
    simp at h24
  · rw [if_neg h2] at h
    exact absurd h (by simp)

/-- A path with fewer than `p` slashes makes the lazy repetition
`(.*?/){p}` fail. -/
theorem dropSegs_eq_none_of_count {p : Nat} {cs : List Char}
    (h : cs.count '/' < p) : dropSegs p cs = none := by
  induction cs generalizing p with
  | nil =>
    cases p with
    | zero => exact absurd h (by simp)
    | succ p => rfl
  | cons c cs ih =>
    cases p with
    | zero => exact absurd h (by omega)
    | succ p =>
      rw [List.count_cons] at h
      by_cases hc : c = '/'
      · subst hc
        have hcnt : cs.count '/' < p := by
          simp at h
          omega
        simp [dropSegs, ih hcnt]
      · have hcnt : cs.count '/' < p + 1 := by
          have hne : (c == '/') = false := by
            simpa using hc
          rw [hne] at h
          omega
        simp [dropSegs, hc, ih hcnt]

/-- The invariant each entry of `lines_by_file` satisfies: the key
matched the active extension pattern, its range list is non-empty, and
every range is well-ordered. -/
def GoodEntry (exts : List String) (e : String × List (Nat × Nat)) : Prop :=
  extMatches exts e.1 = true ∧ e.2 ≠ [] ∧ ∀ q ∈ e.2, q.1 ≤ q.2

instance (exts : List String) (e : String × List (Nat × Nat)) :
    Decidable (GoodEntry exts e) := by
  unfold GoodEntry
  infer_instance

/-- `appendRange` changes only the entry of the appended filename, where
it appends the new range at the end. -/
theorem rangesOf_appendRange (m : List (String × List (Nat × Nat)))
    (g f : String) (r : Nat × Nat) :
    rangesOf (appendRange m g r) f
      = if g = f then rangesOf m f ++ [r] else rangesOf m f := by
  induction m with
  | nil =>
    by_cases h : g = f <;> simp [appendRange, rangesOf, h]
  | cons e rest ih =>
    obtain ⟨h, rs⟩ := e
    by_cases hg : h = g
    · subst hg
      by_cases hf : h = f
      · subst hf
        simp [appendRange, rangesOf]
      · simp [appendRange, rangesOf, hf]
    · by_cases hf : h = f
      · subst hf
        have hgf : ¬g = h := fun hq => hg hq.symm
        simp [appendRange, rangesOf, hg, hgf]
      · simp [appendRange, rangesOf, hg, hf, ih]

/-- A successful emission targets an extension-matching filename and a
well-ordered range. -/
theorem lineEmit_good (exts : List String) {fn : Option String}
    {line : List Char} {g : String} {r : Nat × Nat}
    (h : lineEmit exts fn line = some (g, r)) :
    extMatches exts g = true ∧ r.1 ≤ r.2 := by
  cases fn with
  | none => simp [lineEmit] at h
  | some f =>
    by_cases hext : extMatches exts f
    · simp only [lineEmit, hext, if_true] at h
      cases hp : hunkParse line with
      | none => rw [hp] at h; simp at h
      | some sc =>
        obtain ⟨s, cnt⟩ := sc
        rw [hp] at h
        simp only [] at h
        by_cases hc : cnt.getD 1 = 0
        · simp [hc] at h
        · simp [hc] at h
          obtain ⟨hgf, hrr⟩ := h
          subst hgf
          refine ⟨hext, ?_⟩
          rw [← hrr]
          have : 1 ≤ cnt.getD 1 := Nat.one_le_iff_ne_zero.mpr hc
          simp
          omega
    · simp [lineEmit, hext] at h

/-- `appendRange` preserves the entry invariant. -/
theorem good_appendRange (exts : List String) (g : String) (r : Nat × Nat)
    (hg : extMatches exts g = true) (hr : r.1 ≤ r.2) :
    ∀ m, (∀ e ∈ m, GoodEntry exts e) → ∀ e ∈ appendRange m g r, GoodEntry exts e := by
  intro m
  induction m with
  | nil =>
    intro _ e he
    simp [appendRange] at he
    subst he
    exact ⟨hg, by simp, by simpa using hr⟩
  | cons e0 rest ih =>
    obtain ⟨h, rs⟩ := e0
    intro hm e he
    by_cases hh : h = g
    · subst hh
      simp only [appendRange, if_pos rfl] at he
      rcases List.mem_cons.mp he with he | he
      · subst he
        have h0 := hm (h, rs) (by simp)
        refine ⟨h0.1, by simp, ?_⟩
        intro q hq
        rcases List.mem_append.mp hq with hq | hq
        · exact h0.2.2 q hq
        · simp at hq
          subst hq
          exact hr
      · exact hm e (List.mem_cons_of_mem _ he)
    · simp only [appendRange, if_neg hh] at he
      rcases List.mem_cons.mp he with he | he
      · subst he
        exact hm (h, rs) (by simp)
      · exact ih (fun e' he' => hm e' (List.mem_cons_of_mem _ he')) e he

/-- Every entry ever present in the accumulated map stays good through
the extraction fold. -/
theorem extract_good (exts : List String) (p : Nat) :
    ∀ (input : List (List Char)) (fn : Option String)
      (m : List (String × List (Nat × Nat))),
      (∀ e ∈ m, GoodEntry exts e) →
      ∀ e ∈ (input.foldl (stepFn exts p) ⟨fn, m⟩).lines_by_file, GoodEntry exts e := by
  intro input
  induction input with
  | nil =>
    intro fn m hm
    simpa using hm
  | cons line rest ih =>
    intro fn m hm
    rw [List.foldl_cons]
    cases hle : lineEmit exts (nextFilename p fn line) line with
    | none =>
      rw [show stepFn exts p ⟨fn, m⟩ line = ⟨nextFilename p fn line, m⟩ from by
        simp [stepFn, hle]]
      exact ih _ m hm
    | some e0 =>
      obtain ⟨g, r⟩ := e0
      have hgood := lineEmit_good exts hle
      rw [show stepFn exts p ⟨fn, m⟩ line
          = ⟨nextFilename p fn line, appendRange m g r⟩ from by simp [stepFn, hle]]
      exact ih _ _ (good_appendRange exts g r hgood.1 hgood.2 m hm)

/-- The per-file range lists produced by the extraction fold are the
chronological emission trace filtered to that file. -/
theorem foldl_rangesOf (exts : List String) (p : Nat) (f : String) :
    ∀ (input : List (List Char)) (fn : Option String)
      (m : List (String × List (Nat × Nat))),
      rangesOf ((input.foldl (stepFn exts p) ⟨fn, m⟩).lines_by_file) f
        = rangesOf m f ++ (emits exts p fn input).filterMap
            (fun e => if e.1 = f then some e.2 else none) := by
  intro input
  induction input with
  | nil =>
    intro fn m
    simp [emits]
  | cons line rest ih =>
    intro fn m
    rw [List.foldl_cons]
    cases hle : lineEmit exts (nextFilename p fn line) line with
    | none =>
      rw [show stepFn exts p ⟨fn, m⟩ line = ⟨nextFilename p fn line, m⟩ from by
        simp [stepFn, hle]]
      rw [ih _ m]
      simp only [emits, hle]
    | some e0 =>
      obtain ⟨g, r⟩ := e0
      rw [show stepFn exts p ⟨fn, m⟩ line
          = ⟨nextFilename p fn line, appendRange m g r⟩ from by simp [stepFn, hle]]
      rw [ih _ _]
      rw [rangesOf_appendRange]
      simp only [emits, hle]
      by_cases hgf : g = f
      · subst hgf
        simp [List.filterMap_cons, List.append_assoc]
      · simp [hgf, List.filterMap_cons]

/-! ## Claim theorems -/

/-- C4: for every input, (i) every entry of the extracted mapping has an
extension-matching key, a non-empty range list, and only ranges with
`end_line >= start_line`; (ii) the range list of each file is exactly
the chronological emission trace of the input filtered to that file, so
ranges appear in the order their hunks appeared. -/
theorem extraction_invariants (exts : List String) (p : Nat)
    (input : List (List Char)) :
    (∀ e ∈ extract exts p input,
      extMatches exts e.1 = true ∧ e.2 ≠ [] ∧ ∀ q ∈ e.2, q.1 ≤ q.2) ∧
    (∀ f, rangesOf (extract exts p input) f
      = (emits exts p none input).filterMap
          (fun e => if e.1 = f then some e.2 else none)) := by
  constructor
  · intro e he
    exact extract_good exts p input none [] (by simp) e he
  · intro f
    have h := foldl_rangesOf exts p f input none []
    simpa [extract, rangesOf] using h

/-- C4 witness: a concrete two-line diff yields entry
`("a.py", [(3, 6)])` satisfying all three invariants, with ranges in
trace order. -/
theorem extraction_invariants_witness :
    (extMatches ["py"] "a.py" = true ∧ ([(3, 6)] : List (Nat × Nat)) ≠ [] ∧
      ∀ q ∈ [((3 : Nat), (6 : Nat))], q.1 ≤ q.2) ∧
    rangesOf (extract ["py"] 1 [("+++ b/a.py").data, ("@@ -1,2 +3,4 @@").data]) "a.py"
      = [(3, 6)] := by
  have h := extraction_invariants ["py"] 1
    [("+++ b/a.py").data, ("@@ -1,2 +3,4 @@").data]
  refine ⟨h.1 ("a.py", [(3, 6)]) (by decide), ?_⟩
  rw [h.2 "a.py"]
  decide

/-- C5: for every line whose hunk-regex parse carries an explicit count
of `0`, the extraction loop records no range: `lines_by_file` is left
unchanged by that line (pure-deletion hunks never contribute a pair). -/
theorem hunk_count_zero_records_nothing (exts : List String) (p : Nat)
    (st : ExtractState) (line : List Char) (s : Nat)
    (h : hunkParse line = some (s, some 0)) :
    (stepFn exts p st line).lines_by_file = st.lines_by_file := by
  have hle : ∀ fn, lineEmit exts fn line = none := by
    intro fn
    cases fn with
    | none => rfl
    | some f => simp [lineEmit, h]
  simp [stepFn, hle]

/-- C5 witness: the pure-deletion hunk header `@@ -5,2 +7,0 @@` parses
with count `0` and leaves the accumulated map untouched. -/
theorem hunk_count_zero_records_nothing_witness :
    hunkParse ("@@ -5,2 +7,0 @@").data = some (7, some 0) ∧
    (stepFn ["py"] 0 ⟨some "a.py", [("a.py", [(1, 1)])]⟩
        ("@@ -5,2 +7,0 @@").data).lines_by_file = [("a.py", [(1, 1)])] :=
  ⟨by decide,
   hunk_count_zero_records_nothing ["py"] 0 ⟨some "a.py", [("a.py", [(1, 1)])]⟩
     ("@@ -5,2 +7,0 @@").data 7 (by decide)⟩

/-- C6: a hunk header whose parse lacks an explicit count behaves exactly
like one whose parse carries count `1`: the loop body maps any state to
the same result for both lines, and the recorded range is `(N, N)`. -/
theorem hunk_no_count_eq_count_one (exts : List String) (p : Nat)
    (st : ExtractState) (l1 l2 : List Char) (N : Nat)
    (h1 : hunkParse l1 = some (N, none))
    (h2 : hunkParse l2 = some (N, some 1)) :
    stepFn exts p st l1 = stepFn exts p st l2 ∧
    (∀ f, st.filename = some f → extMatches exts f = true →
      (stepFn exts p st l1).lines_by_file = appendRange st.lines_by_file f (N, N)) := by
  have hh1 : headerMatch p l1 = none := headerMatch_of_hunkParse p h1
  have hh2 : headerMatch p l2 = none := headerMatch_of_hunkParse p h2
  have hle : ∀ fn, lineEmit exts fn l1 = lineEmit exts fn l2 := by
    intro fn
    cases fn with
    | none => rfl
    | some f => simp [lineEmit, h1, h2]
  constructor
  · simp [stepFn, nextFilename, hh1, hh2, hle]
  · intro f hf hext
    simp [stepFn, nextFilename, hh1, hf, lineEmit, h1, hext]

/-- C6 witness: `@@ -10,0 +10 @@` and `@@ -10,0 +10,1 @@` act
identically and record the range `(10, 10)`. -/
theorem hunk_no_count_eq_count_one_witness :
    stepFn ["py"] 0 ⟨some "a.py", []⟩ ("@@ -10,0 +10 @@").data
      = stepFn ["py"] 0 ⟨some "a.py", []⟩ ("@@ -10,0 +10,1 @@").data ∧
    (stepFn ["py"] 0 ⟨some "a.py", []⟩ ("@@ -10,0 +10 @@").data).lines_by_file
      = appendRange [] "a.py" (10, 10) := by
  have h := hunk_no_count_eq_count_one ["py"] 0 ⟨some "a.py", []⟩
    ("@@ -10,0 +10 @@").data ("@@ -10,0 +10,1 @@").data 10 (by decide) (by decide)
  exact ⟨h.1, h.2 "a.py" rfl (by decide)⟩

/-- C7: any formatter name outside `clang-format`, `yapf`, `yapf3` makes
the run exit with status 78 after printing a message to standard output,
starting no process; the result does not depend on the diff input, the
external world, or the filesystem at all. -/
theorem unknown_formatter_exits_78 (name : String)
    (h1 : name ≠ "clang-format") (h2 : name ≠ "yapf") (h3 : name ≠ "yapf3")
    (p : Nat) (inplace dryrun : Bool) (options : Option (List String))
    (stdinLines stdinLines' : List (List Char)) (exec exec' : Exec)
    (fs fs' : FileSystem) :
    mainRun name p inplace dryrun options stdinLines exec fs
      = ⟨[], "Formatter " ++ name ++ " not implemented" ++ "\n", "", some 78⟩ ∧
    mainRun name p inplace dryrun options stdinLines exec fs
      = mainRun name p inplace dryrun options stdinLines' exec' fs' := by
  constructor <;> simp [mainRun, formatterFor, h1, h2, h3]

/-- C7 witness: running with formatter name `gofmt` exits 78 at once. -/
theorem unknown_formatter_exits_78_witness :
    mainRun "gofmt" 0 false false none [] (fun _ => (0, "", "")) (fun _ => "")
      = ⟨[], "Formatter " ++ "gofmt" ++ " not implemented" ++ "\n", "", some 78⟩ :=
  (unknown_formatter_exits_78 "gofmt" (by decide) (by decide) (by decide) 0
    false false none [] [] (fun _ => (0, "", "")) (fun _ => (0, "", ""))
    (fun _ => "") (fun _ => "")).1

/-- C10: the hunk regex's greedy `.*` makes the parse pick the LAST
`+digits` occurrence on the line: a match in the tail wins over anything
before it; on an ordinary header (`@@ -1,2 +3,4 @@`) this is the real
range field, giving `(3, 6)`, but trailing section text `i+5` hijacks
the parse, giving `(5, 5)` instead of `(3, 6)`. -/
theorem hunk_regex_takes_last_occurrence :
    (∀ xs ys r, hunkScan ys = some r → hunkScan (xs ++ ys) = some r) ∧
    hunkParse ("@@ -1,2 +3,4 @@").data = some (3, some 4) ∧
    (stepFn ["py"] 0 ⟨some "a.py", []⟩
        ("@@ -1,2 +3,4 @@").data).lines_by_file = [("a.py", [(3, 6)])] ∧
    hunkParse ("@@ -1,2 +3,4 @@ i+5").data = some (5, none) ∧
    (stepFn ["py"] 0 ⟨some "a.py", []⟩
        ("@@ -1,2 +3,4 @@ i+5").data).lines_by_file = [("a.py", [(5, 5)])] := by
  refine ⟨?_, by decide, by decide, by decide, by decide⟩
  intro xs ys r h
  induction xs with
  | nil => simpa using h
  | cons c cs ih => simp only [List.cons_append, hunkScan, List.append_eq, ih]

/-- C10 witness: a trailing `+7` is found no matter what precedes it. -/
theorem hunk_regex_takes_last_occurrence_witness :
    hunkScan ("xyz".data ++ "+7".data) = some (7, none) :=
  hunk_regex_takes_last_occurrence.1 "xyz".data "+7".data (7, none) (by decide)

/-- C3 counterexample: with strip count `1`, the header `+++ noslash`
does not match the header regex, yet the hunk header following it is
still recorded — against the filename set by the earlier matching header
`+++ b/a.py` — because the code keeps the previous `filename` value
instead of unsetting it. -/
theorem nonmatching_header_counterexample :
    headerMatch 1 ("+++ noslash").data = none ∧
    extract ["py"] 1 [("+++ b/a.py").data, ("+++ noslash").data] = [] ∧
    extract ["py"] 1
        [("+++ b/a.py").data, ("+++ noslash").data, ("@@ -1,0 +2,3 @@").data]
      = [("a.py", [(2, 4)])] :=
  ⟨by decide, by decide, by decide⟩

/-- C3 (amended): a path with fewer slashes than the strip count makes
the `+++` header regex fail; a non-matching `+++` header leaves
`current_filename` UNCHANGED (it retains its previous value rather than
being unset); subsequent lines are therefore skipped only when no
earlier header had set a filename, in which case the whole state is
untouched. -/
theorem nonmatching_header_keeps_filename (exts : List String) (p : Nat)
    (path line : List Char) (st : ExtractState)
    (hslash : path.count '/' < p) (hnm : headerMatch p line = none) :
    headerMatch p ('+' :: '+' :: '+' :: ' ' :: path) = none ∧
    (stepFn exts p st line).filename = st.filename ∧
    (st.filename = none → stepFn exts p st line = st) := by
  refine ⟨?_, ?_, ?_⟩
  · simp [headerMatch, dropSegs_eq_none_of_count hslash]
  · simp only [stepFn, nextFilename, hnm]
    cases hle : lineEmit exts st.filename line with
    | none => simp [hle]
    | some e =>
      obtain ⟨f, r⟩ := e
      simp [hle]
  · intro h0
    cases st with
    | mk fn m =>
      simp only [ExtractState.filename] at h0
      subst h0
      simp [stepFn, nextFilename, hnm, lineEmit]

/-- C3 (amended) witness: `+++ noslash` with strip count 1 keeps the
previously set filename `a.py`. -/
theorem nonmatching_header_keeps_filename_witness :
    headerMatch 1 ('+' :: '+' :: '+' :: ' ' :: "noslash".data) = none ∧
    (stepFn ["py"] 1 ⟨some "a.py", []⟩ ("+++ noslash").data).filename
      = some "a.py" := by
  have h := nonmatching_header_keeps_filename ["py"] 1 "noslash".data
    ("+++ noslash").data ⟨some "a.py", []⟩ (by decide) (by decide)
  exact ⟨h.1, h.2.1⟩

/-- The modelled `difflib` output is empty exactly when the inputs are
equal. -/
theorem unifiedDiff_eq_empty_iff (a b : List String) (f1 f2 d1 d2 : String) :
    unifiedDiff a b f1 f2 d1 d2 = "" ↔ a = b := by
  unfold unifiedDiff
  by_cases h : a = b
  · simp [h]
  · rw [if_neg h]
    constructor
    · intro heq
      have hlen := congrArg String.length heq
      rw [String.length_append] at hlen
      have h4 : "--- ".length = 4 := rfl
      have h0 : String.length "" = 0 := rfl
      exfalso
      omega
    · intro heq
      exact absurd heq h

/-- The guard `if len(diff_string) > 0` is a no-op around the modelled
diff: writing nothing equals writing the empty diff. -/
theorem unifiedDiff_if_length (a b : List String) (f1 f2 d1 d2 : String) :
    (if 0 < (unifiedDiff a b f1 f2 d1 d2).length
      then unifiedDiff a b f1 f2 d1 d2 else "")
      = unifiedDiff a b f1 f2 d1 d2 := by
  by_cases h : a = b
  · simp [unifiedDiff, h]
  · rw [if_pos]
    unfold unifiedDiff
    rw [if_neg h, String.length_append]
    have h4 : "--- ".length = 4 := rfl
    omega

/-- A successfully formatted file passes the tail's exit status and
standard-error output through unchanged, prepending only its own
command. -/
theorem format_code_success_tail (fmt : CodeFormatter) (exec : Exec)
    (fs : FileSystem) (inplace : Bool) (options : Option (List String))
    (g : String) (gs : List (Nat × Nat))
    (rest' : List (String × List (Nat × Nat)))
    (h0 : (exec (builtCommand fmt inplace options g gs)).1 = 0) :
    (format_code fmt exec fs inplace options false ((g, gs) :: rest')).exitCode
      = (format_code fmt exec fs inplace options false rest').exitCode ∧
    (format_code fmt exec fs inplace options false ((g, gs) :: rest')).err
      = (format_code fmt exec fs inplace options false rest').err ∧
    (format_code fmt exec fs inplace options false ((g, gs) :: rest')).commands
      = builtCommand fmt inplace options g gs
        :: (format_code fmt exec fs inplace options false rest').commands := by
  cases inplace <;> simp [format_code, h0]

/-- C2: in normal (non-dry-run) mode, when every invocation before some
file succeeds and that file's formatter invocation returns a non-zero
status, the run terminates with exactly the child's status, its captured
standard error is the run's whole standard-error output, and no further
file is processed: the commands started are precisely those for the
earlier files plus the failing one. -/
theorem formatter_failure_fail_fast (fmt : CodeFormatter) (exec : Exec)
    (fs : FileSystem) (inplace : Bool) (options : Option (List String))
    (pre : List (String × List (Nat × Nat))) (f : String)
    (ls : List (Nat × Nat)) (rest : List (String × List (Nat × Nat)))
    (hpre : ∀ e ∈ pre, (exec (builtCommand fmt inplace options e.1 e.2)).1 = 0)
    (hfail : (exec (builtCommand fmt inplace options f ls)).1 ≠ 0) :
    (format_code fmt exec fs inplace options false (pre ++ (f, ls) :: rest)).exitCode
      = some (exec (builtCommand fmt inplace options f ls)).1 ∧
    (format_code fmt exec fs inplace options false (pre ++ (f, ls) :: rest)).err
      = (exec (builtCommand fmt inplace options f ls)).2.2 ∧
    (format_code fmt exec fs inplace options false (pre ++ (f, ls) :: rest)).commands
      = pre.map (fun e => builtCommand fmt inplace options e.1 e.2)
        ++ [builtCommand fmt inplace options f ls] := by
  induction pre with
  | nil =>
    simp only [List.nil_append, format_code]
    simp [hfail]
  | cons e0 pre ih =>
    obtain ⟨g, gs⟩ := e0
    have h0 : (exec (builtCommand fmt inplace options g gs)).1 = 0 :=
      hpre (g, gs) (by simp)
    have ih' := ih (fun e he => hpre e (List.mem_cons_of_mem _ he))
    have hstep := format_code_success_tail fmt exec fs inplace options g gs
      (pre ++ (f, ls) :: rest) h0
    simp only [List.cons_append]
    refine ⟨?_, ?_, ?_⟩
    · rw [hstep.1, ih'.1]
    · rw [hstep.2.1, ih'.2.1]
    · rw [hstep.2.2, ih'.2.2]
      simp

/-- C2 witness: with one successfully formatted file queued before a
file whose formatter exits 2 with `syntax error`, the run stops at
status 2, prints `syntax error` to standard error, and starts no
command for the third queued file. -/
theorem formatter_failure_fail_fast_witness :
    (format_code ⟨"yapf", yapfTemplate, none⟩
        (fun c => if c = ["yapf", "--lines", "1-1", "ok.py"] then (0, "", "")
                  else (2, "", "syntax error"))
        (fun _ => "") false none false
        [("ok.py", [(1, 1)]), ("bad.py", [(2, 2)]), ("later.py", [(3, 3)])]).exitCode
      = some 2 ∧
    (format_code ⟨"yapf", yapfTemplate, none⟩
        (fun c => if c = ["yapf", "--lines", "1-1", "ok.py"] then (0, "", "")
                  else (2, "", "syntax error"))
        (fun _ => "") false none false
        [("ok.py", [(1, 1)]), ("bad.py", [(2, 2)]), ("later.py", [(3, 3)])]).err
      = "syntax error" ∧
    (format_code ⟨"yapf", yapfTemplate, none⟩
        (fun c => if c = ["yapf", "--lines", "1-1", "ok.py"] then (0, "", "")
                  else (2, "", "syntax error"))
        (fun _ => "") false none false
        [("ok.py", [(1, 1)]), ("bad.py", [(2, 2)]), ("later.py", [(3, 3)])]).commands
      = [["yapf", "--lines", "1-1", "ok.py"], ["yapf", "--lines", "2-2", "bad.py"]] := by
  have h := formatter_failure_fail_fast ⟨"yapf", yapfTemplate, none⟩
    (fun c => if c = ["yapf", "--lines", "1-1", "ok.py"] then (0, "", "")
              else (2, "", "syntax error"))
    (fun _ => "") false none [("ok.py", [(1, 1)])] "bad.py" [(2, 2)]
    [("later.py", [(3, 3)])] (by decide) (by decide)
  exact ⟨h.1, h.2.1, h.2.2⟩

/-- In dry-run mode `format_code` starts no process, writes nothing to
standard error, never exits, and prints exactly one line per file: the
space-joined assembled command. -/
theorem format_code_dryrun (fmt : CodeFormatter) (exec : Exec) (fs : FileSystem)
    (inplace : Bool) (options : Option (List String)) :
    ∀ files, format_code fmt exec fs inplace options true files
      = ⟨[],
         (files.map
            (fun e => joinSp (builtCommand fmt inplace options e.1 e.2) ++ "\n")).foldr
            (fun a b => a ++ b) "",
         "", none⟩ := by
  intro files
  induction files with
  | nil => rfl
  | cons e rest ih =>
    obtain ⟨g, gs⟩ := e
    simp [format_code, ih]

/-- C8: in dry-run mode the run is independent of the external world and
the filesystem (hence deterministic in the input and options alone),
starts no process, writes nothing to standard error, does not exit
early, and prints exactly the space-joined assembled command line for
each selected file. -/
theorem dry_run_deterministic (name : String) (p : Nat) (inplace : Bool)
    (options : Option (List String)) (stdinLines : List (List Char))
    (exec exec' : Exec) (fs fs' : FileSystem)
    (hname : name = "clang-format" ∨ name = "yapf" ∨ name = "yapf3") :
    mainRun name p inplace true options stdinLines exec fs
      = mainRun name p inplace true options stdinLines exec' fs' ∧
    (mainRun name p inplace true options stdinLines exec fs).commands = [] ∧
    (mainRun name p inplace true options stdinLines exec fs).err = "" ∧
    (mainRun name p inplace true options stdinLines exec fs).exitCode = none ∧
    (∃ fmt exts, formatterFor name options = some (fmt, exts) ∧
      (mainRun name p inplace true options stdinLines exec fs).out
        = ((extract exts p stdinLines).map
            (fun e => joinSp (builtCommand fmt inplace options e.1 e.2) ++ "\n")).foldr
            (fun a b => a ++ b) "") := by
  have hsome : ∃ fmt exts, formatterFor name options = some (fmt, exts) := by
    rcases hname with h | h | h <;> subst h <;> exact ⟨_, _, rfl⟩
  obtain ⟨fmt, exts, hfe⟩ := hsome
  refine ⟨?_, ?_, ?_, ?_, fmt, exts, hfe, ?_⟩ <;>
    simp only [mainRun, hfe, format_code_dryrun]

/-- C8 witness: two dry runs over the same diff with different external
worlds and filesystems print the same text and start nothing. -/
theorem dry_run_deterministic_witness :
    mainRun "yapf" 1 false true none
        [("+++ b/pkg/x.py").data, ("@@ -10,0 +10,3 @@").data]
        (fun _ => (0, "", "")) (fun _ => "x")
      = mainRun "yapf" 1 false true none
        [("+++ b/pkg/x.py").data, ("@@ -10,0 +10,3 @@").data]
        (fun _ => (1, "y", "z")) (fun _ => "w") ∧
    (mainRun "yapf" 1 false true none
        [("+++ b/pkg/x.py").data, ("@@ -10,0 +10,3 @@").data]
        (fun _ => (0, "", "")) (fun _ => "x")).commands = [] := by
  have h := dry_run_deterministic "yapf" 1 false none
    [("+++ b/pkg/x.py").data, ("@@ -10,0 +10,3 @@").data]
    (fun _ => (0, "", "")) (fun _ => (1, "y", "z"))
    (fun _ => "x") (fun _ => "w") (Or.inr (Or.inl rfl))
  exact ⟨h.1, h.2.1⟩

/-- C1: on the two-line diff `+++ b/pkg/x.py`, `@@ -10,0 +10,3 @@`, run
with formatter `yapf`, strip count 1 and no in-place flag, the tool
starts exactly the command `yapf --lines 10-12 pkg/x.py`, reads
`pkg/x.py` from the filesystem, and writes to standard output the
unified diff (labelled before/after formatting) of that file's lines
against the child's captured standard output — which is empty exactly
when the two agree line by line; nothing is written to standard error
and the run does not exit early. -/
theorem end_to_end_yapf (exec : Exec) (fs : FileSystem)
    (childOut childErr : String)
    (h : exec ["yapf", "--lines", "10-12", "pkg/x.py"] = (0, childOut, childErr)) :
    (mainRun "yapf" 1 false false none
        [("+++ b/pkg/x.py").data, ("@@ -10,0 +10,3 @@").data] exec fs).commands
      = [["yapf", "--lines", "10-12", "pkg/x.py"]] ∧
    (mainRun "yapf" 1 false false none
        [("+++ b/pkg/x.py").data, ("@@ -10,0 +10,3 @@").data] exec fs).out
      = unifiedDiff (readlines (fs "pkg/x.py")) (readlines childOut)
          "pkg/x.py" "pkg/x.py" "(before formatting)" "(after formatting)" ∧
    ((mainRun "yapf" 1 false false none
        [("+++ b/pkg/x.py").data, ("@@ -10,0 +10,3 @@").data] exec fs).out = ""
      ↔ readlines (fs "pkg/x.py") = readlines childOut) ∧
    (mainRun "yapf" 1 false false none
        [("+++ b/pkg/x.py").data, ("@@ -10,0 +10,3 @@").data] exec fs).err = "" ∧
    (mainRun "yapf" 1 false false none
        [("+++ b/pkg/x.py").data, ("@@ -10,0 +10,3 @@").data] exec fs).exitCode
      = none := by
  have hfe : formatterFor "yapf" none
      = some (⟨"yapf", yapfTemplate, none⟩, ["py"]) := by decide
  have hext : extract ["py"] 1
      [("+++ b/pkg/x.py").data, ("@@ -10,0 +10,3 @@").data]
      = [("pkg/x.py", [(10, 12)])] := by decide
  have hcmd : builtCommand ⟨"yapf", yapfTemplate, none⟩ false none "pkg/x.py" [(10, 12)]
      = ["yapf", "--lines", "10-12", "pkg/x.py"] := by decide
  have hmain : mainRun "yapf" 1 false false none
      [("+++ b/pkg/x.py").data, ("@@ -10,0 +10,3 @@").data] exec fs
      = format_code ⟨"yapf", yapfTemplate, none⟩ exec fs false none false
          [("pkg/x.py", [(10, 12)])] := by
    simp only [mainRun, hfe, hext]
  have hrun : format_code ⟨"yapf", yapfTemplate, none⟩ exec fs false none false
      [("pkg/x.py", [(10, 12)])]
      = ⟨[["yapf", "--lines", "10-12", "pkg/x.py"]],
         unifiedDiff (readlines (fs "pkg/x.py")) (readlines childOut)
           "pkg/x.py" "pkg/x.py" "(before formatting)" "(after formatting)",
         "", none⟩ := by
    simp only [format_code, hcmd, h]
    simp [unifiedDiff_if_length]
  refine ⟨by rw [hmain, hrun], by rw [hmain, hrun], ?_,
    by rw [hmain, hrun], by rw [hmain, hrun]⟩
  rw [hmain, hrun]
  exact unifiedDiff_eq_empty_iff _ _ _ _ _ _

/-- C1 witness: with the file on disk reading `x=1` and the formatter
emitting `x = 1`, the command is started and the printed diff is
non-empty. -/
theorem end_to_end_yapf_witness :
    (mainRun "yapf" 1 false false none
        [("+++ b/pkg/x.py").data, ("@@ -10,0 +10,3 @@").data]
        (fun c => if c = ["yapf", "--lines", "10-12", "pkg/x.py"]
                  then (0, "x = 1\n", "") else (1, "", ""))
        (fun _ => "x=1\n")).commands
      = [["yapf", "--lines", "10-12", "pkg/x.py"]] ∧
    ¬((mainRun "yapf" 1 false false none
        [("+++ b/pkg/x.py").data, ("@@ -10,0 +10,3 @@").data]
        (fun c => if c = ["yapf", "--lines", "10-12", "pkg/x.py"]
                  then (0, "x = 1\n", "") else (1, "", ""))
        (fun _ => "x=1\n")).out = "") := by
  have h := end_to_end_yapf
    (fun c => if c = ["yapf", "--lines", "10-12", "pkg/x.py"]
              then (0, "x = 1\n", "") else (1, "", ""))
    (fun _ => "x=1\n") "x = 1\n" "" (by decide)
  refine ⟨h.1, ?_⟩
  intro h0
  exact absurd (h.2.2.1.mp h0) (by decide)

/-- Splitting distributes over an inserted separator space: the tokens
of `xs ++ ' ' :: ys` are the tokens of `xs` (with pending accumulator)
followed by the tokens of `ys`. -/
theorem splitWsAux_sep (ys : List Char) : ∀ (xs acc : List Char),
    splitWsAux (xs ++ ' ' :: ys) acc = splitWsAux xs acc ++ splitWsAux ys [] := by
  intro xs
  induction xs with
  | nil =>
    intro acc
    by_cases ha : acc.isEmpty <;> simp [splitWsAux, isSpaceChar, ha]
  | cons c cs ih =>
    intro acc
    by_cases hc : isSpaceChar c
    · by_cases ha : acc.isEmpty <;> simp [splitWsAux, hc, ha, ih]
    · simp [splitWsAux, hc, ih]

/-- A whitespace-free, non-empty run is one single token (together with
whatever the accumulator already holds). -/
theorem splitWsAux_token : ∀ (cs acc : List Char),
    (∀ c ∈ cs, isSpaceChar c = false) → acc.reverse ++ cs ≠ [] →
    splitWsAux cs acc = [String.mk (acc.reverse ++ cs)] := by
  intro cs
  induction cs with
  | nil =>
    intro acc _ hne
    cases acc with
    | nil => simp at hne
    | cons a as => simp [splitWsAux]
  | cons c cs ih =>
    intro acc hws _
    have hc : isSpaceChar c = false := hws c (by simp)
    simp only [splitWsAux, hc, Bool.false_eq_true, if_false]
    rw [ih (c :: acc) (fun d hd => hws d (by simp [hd])) (by simp)]
    congr 1
    simp

/-- A whitespace-free, non-empty string is its own single token. -/
theorem shlexSplit_single (s : String)
    (hws : ∀ c ∈ s.data, isSpaceChar c = false) (hne : s.data ≠ []) :
    shlexSplit s = [s] := by
  unfold shlexSplit
  rw [splitWsAux_token s.data [] hws (by simpa using hne)]
  simp

/-- Tokenizing a space-join yields the concatenation of the per-piece
token lists, for any pieces whatsoever: the inserted separator always
cuts a token boundary. -/
theorem shlexSplit_joinSp : ∀ ps : List String,
    shlexSplit (joinSp ps)
      = (ps.map shlexSplit).foldr (fun a b => a ++ b) [] := by
  intro ps
  induction ps with
  | nil => rfl
  | cons p rest ih =>
    cases rest with
    | nil => simp [joinSp]
    | cons q rest' =>
      show shlexSplit (p ++ " " ++ joinSp (q :: rest')) = _
      unfold shlexSplit
      rw [show (p ++ " " ++ joinSp (q :: rest')).data
          = p.data ++ ' ' :: (joinSp (q :: rest')).data from by
        simp [String.data_append]]
      rw [splitWsAux_sep]
      rw [show splitWsAux (joinSp (q :: rest')).data [] = shlexSplit (joinSp (q :: rest')) from rfl]
      rw [ih]
      rfl

/-- Token lists concatenate along list append. -/
theorem tokens_concat (ps qs : List String) :
    ((ps ++ qs).map shlexSplit).foldr (fun a b => a ++ b) []
      = (ps.map shlexSplit).foldr (fun a b => a ++ b) []
        ++ (qs.map shlexSplit).foldr (fun a b => a ++ b) [] := by
  induction ps with
  | nil => simp
  | cons p ps ih =>
    simp only [List.cons_append, List.map_cons, List.foldr_cons, ih, List.append_assoc]

/-- When every piece is its own single token, re-tokenizing is the
identity. -/
theorem tokens_all_single (ps : List String) (h : ∀ s ∈ ps, shlexSplit s = [s]) :
    (ps.map shlexSplit).foldr (fun a b => a ++ b) [] = ps := by
  induction ps with
  | nil => rfl
  | cons p ps ih =>
    simp only [List.map_cons, List.foldr_cons]
    rw [h p (by simp), ih (fun s hs => h s (by simp [hs]))]
    rfl

/-- `fmt1` replaces the first `\x7b:d\x7d` field, skipping any prefix
free of opening braces. -/
theorem fmt1_replace (x : String) : ∀ (pre post : List Char),
    (∀ c ∈ pre, ¬(c = '\x7b')) →
    fmt1 x (pre ++ '\x7b' :: ':' :: 'd' :: '\x7d' :: post) = pre ++ (x.data ++ post) := by
  intro pre
  induction pre with
  | nil =>
    intro post _
    simp [fmt1]
  | cons c cs ih =>
    intro post hnb
    have hc : ¬(c = '\x7b') := hnb c (by simp)
    simp only [List.cons_append, fmt1]
    rw [if_neg (fun hand => hc hand.1)]
    simp only [List.append_eq]
    rw [ih post (fun d hd => hnb d (by simp [hd]))]

/-- Rendering the yapf template: `'--lines {:d}-{:d}'.format(a, b)` is
`--lines `, the first number, `-`, the second number (provided the
decimal rendering of the first number contains no opening brace). -/
theorem pyFormat2_yapf (a b : Nat)
    (ha : ∀ c ∈ (toString a).data, ¬(c = '\x7b')) :
    (pyFormat2 yapfTemplate a b).data
      = "--lines".data ++ ' ' :: ((toString a).data ++ '-' :: (toString b).data) := by
  show fmt1 (toString b) (fmt1 (toString a) yapfTemplate.data) = _
  rw [show yapfTemplate.data
      = "--lines ".data
        ++ '\x7b' :: ':' :: 'd' :: '\x7d'
        :: ('-' :: '\x7b' :: ':' :: 'd' :: '\x7d' :: []) from by decide]
  rw [fmt1_replace (toString a) "--lines ".data _ (by decide)]
  rw [show "--lines ".data
        ++ ((toString a).data ++ '-' :: '\x7b' :: ':' :: 'd' :: '\x7d' :: ([] : List Char))
      = ("--lines ".data ++ ((toString a).data ++ ['-']))
        ++ '\x7b' :: ':' :: 'd' :: '\x7d' :: ([] : List Char) from by
    simp [List.append_assoc]]
  rw [fmt1_replace (toString b) ("--lines ".data ++ ((toString a).data ++ ['-'])) []
    (by
      intro c hc
      rcases List.mem_append.mp hc with hc | hc
      · revert hc
        have : ∀ c ∈ "--lines ".data, ¬(c = '\x7b') := by decide
        exact this c
      · rcases List.mem_append.mp hc with hc | hc
        · exact ha c hc
        · simp at hc
          subst hc
          decide)]
  rw [show "--lines ".data = "--lines".data ++ [' '] from by decide]
  simp [List.append_assoc]

/-- The rendered yapf range argument splits into exactly two argv
tokens: `--lines` and `a-b`. -/
theorem shlexSplit_yapf_range (a b : Nat)
    (ha : (∀ c ∈ (toString a).data, isSpaceChar c = false ∧ ¬(c = '\x7b'))
      ∧ (toString a).data ≠ [])
    (hb : ∀ c ∈ (toString b).data, isSpaceChar c = false) :
    shlexSplit (pyFormat2 yapfTemplate a b)
      = ["--lines", toString a ++ ("-" ++ toString b)] := by
  unfold shlexSplit
  rw [pyFormat2_yapf a b (fun c hc => (ha.1 c hc).2)]
  rw [splitWsAux_sep]
  rw [show splitWsAux "--lines".data [] = ["--lines"] from by decide]
  rw [splitWsAux_token ((toString a).data ++ '-' :: (toString b).data) []
    (by
      intro c hc
      rcases List.mem_append.mp hc with hc | hc
      · exact (ha.1 c hc).1
      · rcases List.mem_cons.mp hc with hc | hc
        · subst hc
          decide
        · exact hb c hc)
    (by
      simp only [List.reverse_nil, List.nil_append]
      intro hcontra
      exact ha.2 (List.append_eq_nil.mp hcontra).1)]
  simp only [List.reverse_nil, List.nil_append, List.singleton_append]
  congr 2

/-- Tokenizing all rendered yapf range arguments flattens each into its
two tokens, in order. -/
theorem tokens_yapf_ranges : ∀ ranges : List (Nat × Nat),
    (∀ r ∈ ranges,
      ((∀ c ∈ (toString r.1).data, isSpaceChar c = false ∧ ¬(c = '\x7b'))
        ∧ (toString r.1).data ≠ []) ∧
      (∀ c ∈ (toString r.2).data, isSpaceChar c = false)) →
    ((ranges.map (fun r => pyFormat2 yapfTemplate r.1 r.2)).map shlexSplit).foldr
        (fun a b => a ++ b) []
      = ranges.foldr
          (fun r acc => "--lines" :: (toString r.1 ++ ("-" ++ toString r.2)) :: acc) [] := by
  intro ranges
  induction ranges with
  | nil => intro _; rfl
  | cons r rs ih =>
    intro h
    have hr := h r (by simp)
    simp only [List.map_cons, List.foldr_cons]
    rw [shlexSplit_yapf_range r.1 r.2 hr.1 hr.2, ih (fun q hq => h q (by simp [hq]))]
    rfl

/-- C9: the argument vector handed to the child process is not the
structured command list itself but that list joined with single spaces
and re-tokenized with `shlex.split`. For whitespace-free pieces the two
coincide except that each rendered yapf range argument `--lines a-b`
splits into the two tokens `--lines` and `a-b`; but a filename
containing a space is split into several argv tokens instead of being
passed as one argument. -/
theorem command_join_retokenize :
    (∀ (fmt : CodeFormatter) (inplace : Bool) (options : Option (List String))
        (f : String) (ls : List (Nat × Nat)),
      builtCommand fmt inplace options f ls
        = shlexSplit (joinSp ([fmt.binary] ++ (if inplace then ["-i"] else [])
            ++ options.getD []
            ++ ls.map (fun r => pyFormat2 fmt.line_format r.1 r.2) ++ [f]))) ∧
    (∀ (inplace : Bool) (opts : List String) (f : String) (ranges : List (Nat × Nat)),
      (∀ c ∈ f.data, isSpaceChar c = false) → f.data ≠ [] →
      (∀ o ∈ opts, (∀ c ∈ o.data, isSpaceChar c = false) ∧ o.data ≠ []) →
      (∀ r ∈ ranges,
        ((∀ c ∈ (toString r.1).data, isSpaceChar c = false ∧ ¬(c = '\x7b'))
          ∧ (toString r.1).data ≠ []) ∧
        (∀ c ∈ (toString r.2).data, isSpaceChar c = false)) →
      builtCommand ⟨"yapf", yapfTemplate, some opts⟩ inplace (some opts) f ranges
        = ["yapf"] ++ (if inplace then ["-i"] else []) ++ opts
          ++ ranges.foldr
              (fun r acc => "--lines" :: (toString r.1 ++ ("-" ++ toString r.2)) :: acc) []
          ++ [f]) ∧
    builtCommand ⟨"yapf", yapfTemplate, none⟩ false none "my file.py" [(10, 12)]
      = ["yapf", "--lines", "10-12", "my", "file.py"] ∧
    "my file.py" ∉ builtCommand ⟨"yapf", yapfTemplate, none⟩ false none "my file.py" [(10, 12)] := by
  refine ⟨fun fmt inplace options f ls => rfl, ?_, by decide, by decide⟩
  intro inplace opts f ranges hf hfne hopts hranges
  show shlexSplit (joinSp (["yapf"] ++ (if inplace then ["-i"] else []) ++ opts
      ++ ranges.map (fun r => pyFormat2 yapfTemplate r.1 r.2) ++ [f])) = _
  rw [shlexSplit_joinSp]
  rw [tokens_concat, tokens_concat, tokens_concat, tokens_concat]
  rw [tokens_all_single ["yapf"] (by decide)]
  rw [tokens_all_single (if inplace then ["-i"] else [])
    (by cases inplace <;> decide)]
  rw [tokens_all_single opts
    (fun s hs => shlexSplit_single s (hopts s hs).1 (hopts s hs).2)]
  rw [tokens_yapf_ranges ranges hranges]
  rw [tokens_all_single [f] (by
    intro s hs
    rcases List.mem_singleton.mp hs with rfl
    exact shlexSplit_single s hf hfne)]

/-- C9 witness: for the whitespace-free filename `x.py` the argv is the
structured list with the range template split in two. -/
theorem command_join_retokenize_witness :
    builtCommand ⟨"yapf", yapfTemplate, some ["--style=pep8"]⟩ true
        (some ["--style=pep8"]) "x.py" [(10, 12)]
      = ["yapf"] ++ ["-i"] ++ ["--style=pep8"]
        ++ ["--lines", toString 10 ++ ("-" ++ toString 12)] ++ ["x.py"] := by
  have h := command_join_retokenize.2.1 true ["--style=pep8"] "x.py" [(10, 12)]
    (by decide) (by decide) (by decide) (by decide)
  exact h

end GDF
